import Mathlib

/- Verification of the dwrs download engine against its design document.
   The Rust sources embedded here are src/download.rs and src/lib.rs.
   Machine integers (u64, usize) are modelled as Nat; every subtraction
   reached on the modelled paths is guarded so that Nat truncation agrees
   with the u64 value, as the proofs below make explicit.  Error message
   strings are modelled as opaque Nat codes, since no claim depends on
   message text. -/

namespace Dwrs

/-- Constant MIN_CHUNK_SIZE from src/download.rs (2 MiB). -/
def MIN_CHUNK_SIZE : Nat := 2 * 1024 * 1024

/-- Rust u64::div_ceil: quotient rounded upward. -/
def rustDivCeil (a b : Nat) : Nat := a / b + (if a % b = 0 then 0 else 1)

/-- One byte-range chunk of download_parallel: loop index idx, inclusive
    byte bounds.  Field stop is the Rust local variable named end
    (inclusive end offset of the range). -/
structure Chunk where
  idx : Nat
  start : Nat
  stop : Nat
deriving DecidableEq, Repr

/-- The worker clamp at the top of download_parallel:
    min(workers, max(1, total_size / MIN_CHUNK_SIZE)). -/
def optimalWorkers (totalSize workers : Nat) : Nat :=
  min workers (max 1 (totalSize / MIN_CHUNK_SIZE))

/-- chunk_size = total_size.div_ceil(optimal_workers) from download_parallel. -/
def chunkSizeOf (totalSize workers : Nat) : Nat :=
  rustDivCeil totalSize (optimalWorkers totalSize workers)

/-- The chunk planning loop of download_parallel: for i in 0..optimal_workers,
    start = i * chunk_size, end = min(start + chunk_size - 1, total_size - 1),
    and the iteration is skipped (continue) when start > end. -/
def planChunks (totalSize workers : Nat) : List Chunk :=
  let cs := chunkSizeOf totalSize workers
  (List.range (optimalWorkers totalSize workers)).filterMap (fun i =>
    let s := i * cs
    let e := min (s + cs - 1) (totalSize - 1)
    if s > e then none else some ⟨i, s, e⟩)

/-- Number of chunks the loop actually emits (skipped iterations excluded). -/
def numChunks (totalSize workers : Nat) : Nat :=
  (totalSize - 1) / chunkSizeOf totalSize workers + 1

theorem optimalWorkers_pos (S W : Nat) : 0 < optimalWorkers S W ∨ W = 0 := by
  rcases Nat.eq_zero_or_pos W with h | h
  · exact Or.inr h
  · exact Or.inl (lt_min h (lt_of_lt_of_le Nat.one_pos (le_max_left _ _)))

theorem optimalWorkers_pos_of (S W : Nat) (hW : 0 < W) : 0 < optimalWorkers S W :=
  lt_min hW (lt_of_lt_of_le Nat.one_pos (le_max_left _ _))

theorem rustDivCeil_pos (a b : Nat) (ha : 0 < a) (_hb : 0 < b) : 0 < rustDivCeil a b := by
  unfold rustDivCeil
  by_cases h : a % b = 0
  · have hd := Nat.div_add_mod a b
    rw [h, Nat.add_zero] at hd
    have : 0 < a / b := by
      rcases Nat.eq_zero_or_pos (a / b) with h0 | h0
      · rw [h0, Nat.mul_zero] at hd; omega
      · exact h0
    omega
  · simp [h]

theorem rustDivCeil_mul_ge (a b : Nat) (hb : 0 < b) : a ≤ b * rustDivCeil a b := by
  unfold rustDivCeil
  have hd := Nat.div_add_mod a b
  have hm : a % b < b := Nat.mod_lt a hb
  by_cases h : a % b = 0
  · rw [if_pos h, Nat.add_zero]
    omega
  · rw [if_neg h, Nat.mul_add, Nat.mul_one]
    omega

theorem chunkSizeOf_pos (S W : Nat) (hS : 0 < S) (hW : 0 < W) : 0 < chunkSizeOf S W :=
  rustDivCeil_pos S _ hS (optimalWorkers_pos_of S W hW)

theorem chunkSizeOf_mul_ge (S W : Nat) (hW : 0 < W) :
    S ≤ optimalWorkers S W * chunkSizeOf S W :=
  rustDivCeil_mul_ge S _ (optimalWorkers_pos_of S W hW)

theorem numChunks_le_optimalWorkers (S W : Nat) (hS : 0 < S) (hW : 0 < W) :
    numChunks S W ≤ optimalWorkers S W := by
  unfold numChunks
  have hcs : 0 < chunkSizeOf S W := chunkSizeOf_pos S W hS hW
  have hmul : S ≤ optimalWorkers S W * chunkSizeOf S W := chunkSizeOf_mul_ge S W hW
  have : (S - 1) / chunkSizeOf S W < optimalWorkers S W := by
    rw [Nat.div_lt_iff_lt_mul hcs]
    calc S - 1 < S := Nat.sub_lt hS Nat.one_pos
    _ ≤ optimalWorkers S W * chunkSizeOf S W := hmul
  omega

theorem filterMap_if_all_emit {α : Type} (f : Nat → α) (cond : Nat → Prop)
    [DecidablePred cond] :
    ∀ l : List Nat, (∀ i ∈ l, ¬ cond i) →
      l.filterMap (fun i => if cond i then none else some (f i)) = l.map f := by
  intro l h
  induction l with
  | nil => rfl
  | cons a t ih =>
    have ha : ¬ cond a := h a (List.mem_cons_self a t)
    simp only [List.filterMap_cons, if_neg ha, List.map_cons]
    rw [ih (fun i hi => h i (List.mem_cons_of_mem a hi))]

theorem filterMap_if_all_skip {α : Type} (f : Nat → α) (cond : Nat → Prop)
    [DecidablePred cond] :
    ∀ l : List Nat, (∀ i ∈ l, cond i) →
      l.filterMap (fun i => if cond i then none else some (f i)) = [] := by
  intro l h
  induction l with
  | nil => rfl
  | cons a t ih =>
    have ha : cond a := h a (List.mem_cons_self a t)
    simp only [List.filterMap_cons, if_pos ha]
    exact ih (fun i hi => h i (List.mem_cons_of_mem a hi))

theorem filterMap_range_eq_map {α : Type} (f : Nat → α) (cond : Nat → Prop)
    [DecidablePred cond] (n m : Nat) (hnm : n ≤ m)
    (hc : ∀ i, cond i ↔ n ≤ i) :
    (List.range m).filterMap (fun i => if cond i then none else some (f i)) =
      (List.range n).map f := by
  have hm : m = n + (m - n) := by omega
  rw [hm, List.range_add, List.filterMap_append]
  rw [filterMap_if_all_emit f cond (List.range n)
    (fun i hi => by
      rw [hc]
      have : i < n := List.mem_range.mp hi
      omega)]
  rw [filterMap_if_all_skip f cond _
    (fun i hi => by
      rcases List.mem_map.mp hi with ⟨j, _, rfl⟩
      rw [hc]
      omega)]
  exact List.append_nil _

/-- The chunk the planner emits at loop index i, in closed form. -/
def chunkAt (S W i : Nat) : Chunk :=
  ⟨i, i * chunkSizeOf S W,
    min (i * chunkSizeOf S W + chunkSizeOf S W - 1) (S - 1)⟩

/-- The planner output in closed form: the emitted chunks are exactly indices
    0 to numChunks - 1, each with start i * chunk_size and inclusive end
    min(start + chunk_size - 1, total_size - 1). -/
theorem planChunks_eq_map (S W : Nat) (hS : 0 < S) (hW : 0 < W) :
    planChunks S W = (List.range (numChunks S W)).map (chunkAt S W) := by
  have hcs : 0 < chunkSizeOf S W := chunkSizeOf_pos S W hS hW
  have hmul : S ≤ optimalWorkers S W * chunkSizeOf S W := chunkSizeOf_mul_ge S W hW
  unfold planChunks
  refine filterMap_range_eq_map _ _ (numChunks S W) _
    (numChunks_le_optimalWorkers S W hS hW) ?_
  intro i
  unfold numChunks
  constructor
  · intro h
    by_contra hlt
    push_neg at hlt
    have hle : i ≤ (S - 1) / chunkSizeOf S W := by omega
    have : i * chunkSizeOf S W ≤ S - 1 := (Nat.le_div_iff_mul_le hcs).mp hle
    have hmin : min (i * chunkSizeOf S W + chunkSizeOf S W - 1) (S - 1) ≥
        i * chunkSizeOf S W := le_min (by omega) this
    omega
  · intro h
    have : (S - 1) / chunkSizeOf S W < i := by omega
    have hgt : S - 1 < i * chunkSizeOf S W := by
      rw [Nat.div_lt_iff_lt_mul hcs] at this
      exact this
    simp only [gt_iff_lt, lt_min_iff]
    omega

theorem planChunks_length (S W : Nat) (hS : 0 < S) (hW : 0 < W) :
    (planChunks S W).length = numChunks S W := by
  rw [planChunks_eq_map S W hS hW, List.length_map, List.length_range]

theorem planChunks_getElem? (S W : Nat) (hS : 0 < S) (hW : 0 < W) (i : Nat)
    (hi : i < numChunks S W) :
    (planChunks S W)[i]? = some ⟨i, i * chunkSizeOf S W,
      min (i * chunkSizeOf S W + chunkSizeOf S W - 1) (S - 1)⟩ := by
  rw [planChunks_eq_map S W hS hW, List.getElem?_map, List.getElem?_range hi]
  rfl

theorem numChunks_mul_ge (S W : Nat) (hS : 0 < S) (hW : 0 < W) :
    S ≤ numChunks S W * chunkSizeOf S W := by
  have hcs : 0 < chunkSizeOf S W := chunkSizeOf_pos S W hS hW
  unfold numChunks
  have hd := Nat.div_add_mod (S - 1) (chunkSizeOf S W)
  have hm : (S - 1) % chunkSizeOf S W < chunkSizeOf S W := Nat.mod_lt _ hcs
  rw [Nat.add_mul, Nat.one_mul, Nat.mul_comm]
  omega

/-- C2: on the parallel path (ranges supported, S above the parallel
    threshold, W above 1) the planned chunks tile the byte interval from 0
    to S - 1 exactly: the plan is nonempty, the first chunk starts at 0,
    each chunk ends exactly one byte before the next chunk starts, the last
    chunk ends at S - 1, every chunk is nonempty (start at most end, so there
    is no overlap and no gap), and at most W chunks are emitted. -/
theorem chunk_plan_covers_exactly (S W minParallelSize : Nat)
    (hpar : minParallelSize < S) (hW : 1 < W) :
    ((planChunks S W).head?.map Chunk.start = some 0) ∧
    (∀ i c c2, (planChunks S W)[i]? = some c → (planChunks S W)[i + 1]? = some c2 →
      c.stop + 1 = c2.start) ∧
    ((planChunks S W).getLast?.map Chunk.stop = some (S - 1)) ∧
    (∀ c ∈ planChunks S W, c.start ≤ c.stop) ∧
    (planChunks S W).length ≤ W := by
  have hS : 0 < S := by omega
  have hW0 : 0 < W := by omega
  have hcs : 0 < chunkSizeOf S W := chunkSizeOf_pos S W hS hW0
  have hlen := planChunks_length S W hS hW0
  have hn : 0 < numChunks S W := Nat.succ_pos _
  have hmul := numChunks_mul_ge S W hS hW0
  refine ⟨?_, ?_, ?_, ?_, ?_⟩
  · have h0 := planChunks_getElem? S W hS hW0 0 hn
    rw [← List.head?_eq_getElem?] at h0
    rw [h0]
    show some (0 * chunkSizeOf S W) = some 0
    rw [Nat.zero_mul]
  · intro i c c2 hc hc2
    have hi2 : i + 1 < (planChunks S W).length := by
      rcases List.getElem?_eq_some_iff.mp hc2 with ⟨h, _⟩
      exact h
    have hi2n : i + 1 < numChunks S W := by omega
    have hin : i < numChunks S W := by omega
    rw [planChunks_getElem? S W hS hW0 i hin] at hc
    rw [planChunks_getElem? S W hS hW0 (i + 1) hi2n] at hc2
    have hc' : c = ⟨i, i * chunkSizeOf S W,
        min (i * chunkSizeOf S W + chunkSizeOf S W - 1) (S - 1)⟩ :=
      (Option.some_inj.mp hc).symm
    have hc2' : c2 = ⟨i + 1, (i + 1) * chunkSizeOf S W,
        min ((i + 1) * chunkSizeOf S W + chunkSizeOf S W - 1) (S - 1)⟩ :=
      (Option.some_inj.mp hc2).symm
    subst hc' hc2'
    simp only
    have hsucc : (i + 1) * chunkSizeOf S W = i * chunkSizeOf S W + chunkSizeOf S W :=
      Nat.succ_mul i (chunkSizeOf S W)
    have hle : i + 1 ≤ (S - 1) / chunkSizeOf S W := by
      unfold numChunks at hi2n; omega
    have hbound : (i + 1) * chunkSizeOf S W ≤ S - 1 :=
      (Nat.le_div_iff_mul_le hcs).mp hle
    rw [min_eq_left (by omega)]
    omega
  · rw [List.getLast?_eq_getElem?]
    have hlast : (planChunks S W).length - 1 < numChunks S W := by omega
    rw [planChunks_getElem? S W hS hW0 _ hlast, hlen]
    obtain ⟨m, hm⟩ : ∃ m, numChunks S W = m + 1 := ⟨numChunks S W - 1, by omega⟩
    rw [hm]
    simp only [Nat.add_sub_cancel]
    have hmulS : S ≤ (m + 1) * chunkSizeOf S W := by rw [← hm]; exact hmul
    have hdef : numChunks S W = (S - 1) / chunkSizeOf S W + 1 := rfl
    have hstart : m * chunkSizeOf S W ≤ S - 1 := by
      have hle : m ≤ (S - 1) / chunkSizeOf S W := by omega
      exact (Nat.le_div_iff_mul_le hcs).mp hle
    have hsm : (m + 1) * chunkSizeOf S W = m * chunkSizeOf S W + chunkSizeOf S W :=
      Nat.succ_mul m _
    rw [min_eq_right (by omega)]
    rfl
  · intro c hc
    rw [planChunks_eq_map S W hS hW0] at hc
    rcases List.mem_map.mp hc with ⟨i, hi, rfl⟩
    have hin : i < numChunks S W := List.mem_range.mp hi
    have hle : i ≤ (S - 1) / chunkSizeOf S W := by unfold numChunks at hin; omega
    have hbound : i * chunkSizeOf S W ≤ S - 1 := (Nat.le_div_iff_mul_le hcs).mp hle
    show i * chunkSizeOf S W ≤ min (i * chunkSizeOf S W + chunkSizeOf S W - 1) (S - 1)
    exact le_min (by omega) hbound
  · rw [hlen]
    calc numChunks S W ≤ optimalWorkers S W := numChunks_le_optimalWorkers S W hS hW0
    _ ≤ W := min_le_left _ _

/-- Witness for C2 at S = 3, W = 4, threshold 2: the plan is the single
    chunk covering bytes 0 to 2. -/
theorem chunk_plan_covers_exactly_witness :
    (2 < 3 ∧ 1 < 4) ∧
    (((planChunks 3 4).head?.map Chunk.start = some 0) ∧
    (∀ i c c2, (planChunks 3 4)[i]? = some c → (planChunks 3 4)[i + 1]? = some c2 →
      c.stop + 1 = c2.start) ∧
    ((planChunks 3 4).getLast?.map Chunk.stop = some (3 - 1)) ∧
    (∀ c ∈ planChunks 3 4, c.start ≤ c.stop) ∧
    (planChunks 3 4).length ≤ 4) :=
  ⟨⟨by omega, by omega⟩, chunk_plan_covers_exactly 3 4 2 (by omega) (by omega)⟩

/-- Tiling predicate: the chunk list covers the byte interval from a
    (inclusive) to b (exclusive) with no gap and no overlap, each chunk
    nonempty, consecutive chunks adjacent. -/
def chainFrom : Nat → List Chunk → Nat → Prop
  | a, [], b => a = b
  | a, c :: rest, b => c.start = a ∧ c.start ≤ c.stop ∧ chainFrom (c.stop + 1) rest b

theorem chainFrom_le : ∀ (chunks : List Chunk) (a b : Nat), chainFrom a chunks b → a ≤ b := by
  intro chunks
  induction chunks with
  | nil => intro a b h; exact Nat.le_of_eq h
  | cons c rest ih =>
    intro a b h
    obtain ⟨h1, h2, h3⟩ := h
    have := ih _ _ h3
    omega

theorem chain_aux (S W : Nat) (hS : 0 < S) (hW0 : 0 < W) :
    ∀ m k, k + m = numChunks S W → 1 ≤ m →
      chainFrom (k * chunkSizeOf S W) ((List.range' k m).map (chunkAt S W)) S := by
  have hcs : 0 < chunkSizeOf S W := chunkSizeOf_pos S W hS hW0
  have hmul := numChunks_mul_ge S W hS hW0
  have hdef : numChunks S W = (S - 1) / chunkSizeOf S W + 1 := rfl
  intro m
  induction m with
  | zero => intro k _ h1; omega
  | succ m ih =>
    intro k hk _
    rw [List.range'_succ, List.map_cons]
    have hkn : k < numChunks S W := by omega
    have hkle : k ≤ (S - 1) / chunkSizeOf S W := by omega
    have hkb : k * chunkSizeOf S W ≤ S - 1 := (Nat.le_div_iff_mul_le hcs).mp hkle
    refine ⟨rfl, ?_, ?_⟩
    · show k * chunkSizeOf S W ≤ min (k * chunkSizeOf S W + chunkSizeOf S W - 1) (S - 1)
      exact le_min (by omega) hkb
    rcases Nat.eq_zero_or_pos m with rfl | hm
    · rw [List.range'_zero, List.map_nil]
      show (chunkAt S W k).stop + 1 = S
      have hklast : k + 1 = numChunks S W := by omega
      have hup : S ≤ (k + 1) * chunkSizeOf S W := by rw [hklast]; exact hmul
      have hsm : (k + 1) * chunkSizeOf S W = k * chunkSizeOf S W + chunkSizeOf S W :=
        Nat.succ_mul k _
      show min (k * chunkSizeOf S W + chunkSizeOf S W - 1) (S - 1) + 1 = S
      rw [min_eq_right (by omega)]
      omega
    · have hk1 : k + 1 ≤ (S - 1) / chunkSizeOf S W := by omega
      have hb1 : (k + 1) * chunkSizeOf S W ≤ S - 1 := (Nat.le_div_iff_mul_le hcs).mp hk1
      have hsm : (k + 1) * chunkSizeOf S W = k * chunkSizeOf S W + chunkSizeOf S W :=
        Nat.succ_mul k _
      have hstop : (chunkAt S W k).stop + 1 = (k + 1) * chunkSizeOf S W := by
        show min (k * chunkSizeOf S W + chunkSizeOf S W - 1) (S - 1) + 1 = _
        rw [min_eq_left (by omega)]
        omega
      rw [hstop]
      exact ih (k + 1) (by omega) hm

/-- The plan tiles the interval from byte 0 to byte S. -/
theorem planChunks_chain (S W : Nat) (hS : 0 < S) (hW0 : 0 < W) :
    chainFrom 0 (planChunks S W) S := by
  rw [planChunks_eq_map S W hS hW0, List.range_eq_range']
  have h := chain_aux S W hS hW0 (numChunks S W) 0 (by omega) (Nat.succ_pos _)
  rw [Nat.zero_mul] at h
  exact h

/-- The byte range a chunk holds once fully fetched: bytes start through stop
    of the resource. -/
def chunkSlice (l : List Nat) (c : Chunk) : List Nat :=
  (l.drop c.start).take (c.stop - c.start + 1)

theorem flatten_chunkSlice (l : List Nat) :
    ∀ (chunks : List Chunk) (a b : Nat), chainFrom a chunks b →
      ((chunks.map (chunkSlice l)).flatten = (l.drop a).take (b - a)) := by
  intro chunks
  induction chunks with
  | nil =>
    intro a b hch
    have : a = b := hch
    subst this
    simp
  | cons c rest ih =>
    intro a b hch
    obtain ⟨hstart, hse, hrest⟩ := hch
    have hab : c.stop + 1 ≤ b := chainFrom_le _ _ _ hrest
    rw [List.map_cons, List.flatten_cons, ih _ _ hrest]
    subst hstart
    unfold chunkSlice
    have hsplit : b - c.start = (c.stop - c.start + 1) + (b - (c.stop + 1)) := by omega
    rw [hsplit, List.take_add (l.drop c.start) (c.stop - c.start + 1) (b - (c.stop + 1))]
    rw [List.drop_drop]
    have harith : c.start + (c.stop - c.start + 1) = c.stop + 1 := by omega
    rw [harith]

/-- Gluing the slices of all planned chunks in index order rebuilds the
    whole resource. -/
theorem planChunks_flatten (S W : Nat) (hS : 0 < S) (hW0 : 0 < W)
    (l : List Nat) (hlen : l.length = S) :
    ((planChunks S W).map (chunkSlice l)).flatten = l := by
  rw [flatten_chunkSlice l _ 0 S (planChunks_chain S W hS hW0)]
  rw [List.drop_zero, Nat.sub_zero, ← hlen, List.take_length]

/-- The merge preparation in download_parallel: parts.sort_by_key with the
    chunk index as key.  Rust uses a stable comparison sort; modelled by
    mergeSort on the first component. -/
def sortByIdx (parts : List (Nat × List Nat)) : List (Nat × List Nat) :=
  parts.mergeSort (fun a b => a.1 ≤ b.1)

/-- A sorted permutation of a strictly key-sorted list is that list. -/
theorem sortByIdx_eq_of_perm (canonical parts : List (Nat × List Nat))
    (hperm : parts.Perm canonical)
    (hsorted : List.Pairwise (fun a b : Nat × List Nat => a.1 < b.1) canonical) :
    sortByIdx parts = canonical := by
  have hperm2 : (sortByIdx parts).Perm canonical :=
    (List.mergeSort_perm parts _).trans hperm
  have hndcanon : (canonical.map Prod.fst).Nodup :=
    List.pairwise_map.mpr (hsorted.imp (fun h => Nat.ne_of_lt h))
  have hndsorted : ((sortByIdx parts).map Prod.fst).Nodup :=
    ((hperm2.map Prod.fst).nodup_iff).mpr hndcanon
  have hle : List.Pairwise (fun a b : Nat × List Nat => a.1 ≤ b.1) (sortByIdx parts) := by
    have h := @List.sorted_mergeSort (Nat × List Nat)
      (fun a b : Nat × List Nat => a.1 ≤ b.1)
      (fun a b c h1 h2 => by
        simp only [decide_eq_true_eq] at h1 h2 ⊢
        omega)
      (fun a b => by
        rcases Nat.le_total a.1 b.1 with h | h <;> simp [h])
      parts
    exact h.imp (fun h => by simpa using h)
  have hne : List.Pairwise (fun a b : Nat × List Nat => a.1 ≠ b.1) (sortByIdx parts) :=
    List.pairwise_map.mp hndsorted
  have hlt : List.Pairwise (fun a b : Nat × List Nat => a.1 < b.1) (sortByIdx parts) :=
    (hle.and hne).imp (fun h => Nat.lt_of_le_of_ne h.1 h.2)
  haveI : IsAntisymm (Nat × List Nat) (fun a b => a.1 < b.1) :=
    ⟨fun a b h1 h2 => absurd (Nat.lt_trans h1 h2) (Nat.lt_irrefl _)⟩
  exact List.eq_of_perm_of_sorted hperm2 hlt hsorted

/-- Assoc-list model of the on-disk temp files: chunk index to contents. -/
def fsRead (fs : List (Nat × List Nat)) (p : Nat) : Option (List Nat) :=
  (fs.find? (fun e => e.1 == p)).map Prod.snd

/-- Model of fs::remove_file on the temp-file store. -/
def fsRemove (fs : List (Nat × List Nat)) (p : Nat) : List (Nat × List Nat) :=
  fs.filter (fun e => !(e.1 == p))

/-- The merge loop of merge_parts in src/download.rs: create the output
    (accumulator), then for each part path in the given order copy its whole
    contents into the output and delete the temp file immediately after.
    Returns the final output bytes and the remaining temp-file store, or
    none when a part file is missing. -/
def merge_parts : List (Nat × List Nat) → List Nat → List Nat →
    Option (List Nat × List (Nat × List Nat))
  | fs, [], acc => some (acc, fs)
  | fs, p :: rest, acc =>
    match fsRead fs p with
    | none => none
    | some c => merge_parts (fsRemove fs p) rest (acc ++ c)

theorem find?_key_unique (fs : List (Nat × List Nat)) (a : Nat × List Nat)
    (hmem : a ∈ fs) (huniq : ∀ b ∈ fs, b.1 = a.1 → b = a) :
    fs.find? (fun e => e.1 == a.1) = some a := by
  induction fs with
  | nil => cases hmem
  | cons x t ih =>
    rw [List.find?_cons]
    by_cases hx : x.1 = a.1
    · have hxa : x = a := huniq x (List.mem_cons_self x t) hx
      subst hxa
      simp
    · have hxb : (x.1 == a.1) = false := by simp [hx]
      rw [hxb]
      apply ih
      · rcases List.mem_cons.mp hmem with rfl | h
        · exact absurd rfl hx
        · exact h
      · intro b hb hke
        exact huniq b (List.mem_cons_of_mem _ hb) hke

theorem merge_parts_spec :
    ∀ (canonical fs : List (Nat × List Nat)) (acc : List Nat),
      fs.Perm canonical → (canonical.map Prod.fst).Nodup →
      merge_parts fs (canonical.map Prod.fst) acc =
        some (acc ++ (canonical.map Prod.snd).flatten, []) := by
  intro canonical
  induction canonical with
  | nil =>
    intro fs acc hperm _
    rw [hperm.eq_nil]
    simp [merge_parts]
  | cons a rest ih =>
    intro fs acc hperm hnd
    have hmem : a ∈ fs := hperm.mem_iff.mpr (List.mem_cons_self a rest)
    rw [List.map_cons] at hnd
    have hkey_not : a.1 ∉ rest.map Prod.fst := (List.nodup_cons.mp hnd).1
    have hndrest : (rest.map Prod.fst).Nodup := (List.nodup_cons.mp hnd).2
    have huniq : ∀ b ∈ fs, b.1 = a.1 → b = a := by
      intro b hb hk
      rcases List.mem_cons.mp (hperm.mem_iff.mp hb) with rfl | hbr
      · rfl
      · exact absurd (hk ▸ List.mem_map_of_mem Prod.fst hbr) hkey_not
    have hread : fsRead fs a.1 = some a.2 := by
      unfold fsRead
      rw [find?_key_unique fs a hmem huniq]
      rfl
    have hrm : (fsRemove fs a.1).Perm rest := by
      unfold fsRemove
      have h1 := hperm.filter (fun e => !(e.1 == a.1))
      have h2 : (a :: rest).filter (fun e => !(e.1 == a.1)) = rest := by
        rw [List.filter_cons]
        have hfalse : (!(a.1 == a.1)) = false := by simp
        rw [hfalse]
        simp only [Bool.false_eq_true, if_false]
        exact List.filter_eq_self.mpr (fun b hb => by
          have : b.1 ≠ a.1 := fun he => hkey_not (he ▸ List.mem_map_of_mem Prod.fst hb)
          simp [this])
      rw [h2] at h1
      exact h1
    rw [List.map_cons]
    show merge_parts fs (a.1 :: rest.map Prod.fst) acc = _
    rw [merge_parts, hread]
    show merge_parts (fsRemove fs a.1) (rest.map Prod.fst) (acc ++ a.2) = _
    rw [ih (fsRemove fs a.1) (acc ++ a.2) hrm hndrest]
    rw [List.map_cons, List.flatten_cons, List.append_assoc]

/-- C3: for every set of completed chunk temp files, in whatever completion
    order they were collected (any permutation of the planned indexed
    slices), sorting by chunk index restores exactly ascending index order,
    and the merger concatenates the temp files in that order into an output
    byte-identical to the sequential resource, deleting every temp file. -/
theorem merge_rebuilds_resource (S W : Nat) (resource : List Nat)
    (completed : List (Nat × List Nat)) (hS : 0 < S) (hW : 0 < W)
    (hlen : resource.length = S)
    (hperm : completed.Perm
      ((planChunks S W).map (fun c => (c.idx, chunkSlice resource c)))) :
    sortByIdx completed =
      (planChunks S W).map (fun c => (c.idx, chunkSlice resource c)) ∧
    merge_parts completed ((sortByIdx completed).map Prod.fst) [] =
      some (resource, []) := by
  have hkeys : List.Pairwise (fun a b : Nat × List Nat => a.1 < b.1)
      ((planChunks S W).map (fun c => (c.idx, chunkSlice resource c))) := by
    rw [planChunks_eq_map S W hS hW, List.map_map]
    refine List.pairwise_map.mpr ?_
    have h := List.pairwise_lt_range (numChunks S W)
    exact h.imp (fun hab => by simpa [chunkAt] using hab)
  have hsortEq := sortByIdx_eq_of_perm _ completed hperm hkeys
  refine ⟨hsortEq, ?_⟩
  have hnd : (((planChunks S W).map
      (fun c => (c.idx, chunkSlice resource c))).map Prod.fst).Nodup :=
    List.pairwise_map.mpr (hkeys.imp (fun h => Nat.ne_of_lt h))
  rw [hsortEq, merge_parts_spec _ completed [] hperm hnd]
  rw [List.map_map]
  have hsnd : (Prod.snd ∘ fun c => (c.idx, chunkSlice resource c)) =
      chunkSlice resource := rfl
  rw [hsnd, planChunks_flatten S W hS hW resource hlen, List.nil_append]

/-- Witness for C3 at S = 3, W = 4, resource [5, 6, 7], with the completed
    list equal to the canonical indexed slice list. -/
theorem merge_rebuilds_resource_witness :
    (0 < 3 ∧ 0 < 4 ∧ ([5, 6, 7] : List Nat).length = 3) ∧
    (sortByIdx ((planChunks 3 4).map (fun c => (c.idx, chunkSlice [5, 6, 7] c))) =
      (planChunks 3 4).map (fun c => (c.idx, chunkSlice [5, 6, 7] c)) ∧
    merge_parts ((planChunks 3 4).map (fun c => (c.idx, chunkSlice [5, 6, 7] c)))
      ((sortByIdx ((planChunks 3 4).map
        (fun c => (c.idx, chunkSlice [5, 6, 7] c)))).map Prod.fst) [] =
      some ([5, 6, 7], [])) :=
  ⟨⟨by omega, by omega, rfl⟩,
    merge_rebuilds_resource 3 4 [5, 6, 7] _ (by omega) (by omega) rfl (List.Perm.refl _)⟩

/-- The action download_chunk decides before any byte is transferred:
    either the chunk temp file is already complete (return without any
    network request), or a ranged GET is issued, possibly after removing a
    stale temp file, writing in append or create mode. -/
inductive ChunkAction where
  | alreadyComplete
  | fetch (removeFirst : Bool) (reqStart reqEnd : Nat) (append : Bool)
deriving DecidableEq, Repr

/-- The resume bookkeeping at the top of download_chunk in src/download.rs:
    chunk_size = end.saturating_sub(start) + 1; when resuming and the temp
    file exists, a readable length strictly between 0 and chunk_size
    advances the effective start and opens in append mode, a length at least
    chunk_size returns immediately, and a zero length or unreadable metadata
    removes the temp file and refetches the whole range into a fresh file.
    The meta argument is the metadata read: none models a read failure. -/
def download_chunk_plan (start stop : Nat) (resume tmpExists : Bool)
    (meta : Option Nat) : ChunkAction :=
  let chunkSize := stop - start + 1
  if resume ∧ tmpExists then
    match meta with
    | some existing =>
      if 0 < existing ∧ existing < chunkSize then
        ChunkAction.fetch false (start + existing) stop true
      else if chunkSize ≤ existing then ChunkAction.alreadyComplete
      else ChunkAction.fetch true start stop false
    | none => ChunkAction.fetch true start stop false
  else ChunkAction.fetch false start stop false

/-- C4: for a chunk from start to stop of size n = stop - start + 1 fetched
    with resume on and an existing temp file of readable length k: when
    k is at least n the fetcher succeeds with no request; when 0 < k < n it
    requests exactly the remaining n - k bytes, the range starting at
    start + k and ending at stop, appending to the temp file; when k = 0 or
    the metadata is unreadable it recreates the file and requests the full
    range. -/
theorem chunk_resume_behavior (start stop k : Nat) (hse : start ≤ stop) :
    ((stop - start + 1 ≤ k → download_chunk_plan start stop true true (some k) =
        ChunkAction.alreadyComplete) ∧
    (0 < k → k < stop - start + 1 →
      download_chunk_plan start stop true true (some k) =
        ChunkAction.fetch false (start + k) stop true ∧
      stop - (start + k) + 1 = (stop - start + 1) - k) ∧
    (k = 0 → download_chunk_plan start stop true true (some k) =
        ChunkAction.fetch true start stop false) ∧
    (download_chunk_plan start stop true true none =
        ChunkAction.fetch true start stop false)) := by
  have hn : stop - start + 1 = stop - start + 1 := rfl
  refine ⟨?_, ?_, ?_, ?_⟩
  · intro hk
    unfold download_chunk_plan
    have hc1 : ¬ (0 < k ∧ k < stop - start + 1) := by omega
    simp only [if_pos (And.intro rfl rfl), if_neg hc1, if_pos (show stop - start + 1 ≤ k by omega)]
    simp
  · intro hk0 hkn
    constructor
    · unfold download_chunk_plan
      simp only [if_pos (And.intro rfl rfl),
        if_pos (show 0 < k ∧ k < stop - start + 1 by omega)]
      simp
    · omega
  · intro hk
    unfold download_chunk_plan
    have hc1 : ¬ (0 < k ∧ k < stop - start + 1) := by omega
    have hc2 : ¬ (stop - start + 1 ≤ k) := by omega
    simp only [if_pos (And.intro rfl rfl), if_neg hc1, if_neg hc2]
    simp
  · unfold download_chunk_plan
    simp

/-- Witness for C4 at start = 10, stop = 19, k = 4: resume requests bytes
    14 through 19, exactly the remaining 6 of 10. -/
theorem chunk_resume_behavior_witness :
    10 ≤ 19 ∧
    ((19 - 10 + 1 ≤ 4 → download_chunk_plan 10 19 true true (some 4) =
        ChunkAction.alreadyComplete) ∧
    (0 < 4 → 4 < 19 - 10 + 1 →
      download_chunk_plan 10 19 true true (some 4) =
        ChunkAction.fetch false (10 + 4) 19 true ∧
      19 - (10 + 4) + 1 = 19 - 10 + 1 - 4) ∧
    (4 = 0 → download_chunk_plan 10 19 true true (some 4) =
        ChunkAction.fetch true 10 19 false) ∧
    (download_chunk_plan 10 19 true true none =
        ChunkAction.fetch true 10 19 false)) :=
  ⟨by omega, chunk_resume_behavior 10 19 4 (by omega)⟩

/-- Observable events of the retry loop in Downloader::download_file in
    src/lib.rs: a backoff sleep of some number of seconds, a whole-file
    engine attempt numbered by its loop index, and the already-complete
    probe (metadata read plus HEAD with size comparison). -/
inductive REvent where
  | sleep (secs : Nat)
  | attempt (k : Nat)
  | probe (k : Nat)
deriving DecidableEq, Repr

/-- Environment of one retry run.  attemptResult k is the outcome of the
    k-th call of the engine (error codes are opaque Nat).  The remaining
    oracles describe what the filesystem and the re-probe HEAD would report
    at the time attempt k fails: whether the output path exists, the
    readable output file length, and the parsed Content-Length of the HEAD
    response (none models a failed HEAD, a missing header, or an unparsable
    value, all of which skip the comparison in the code). -/
structure RetryEnv where
  attemptResult : Nat → Except Nat Unit
  outputExists : Nat → Bool
  fileLen : Nat → Option Nat
  headLen : Nat → Option Nat

/-- The innermost size comparison of the already-complete short circuit:
    both reads succeed and meta.len() == total. -/
def shortCircuitEqual (env : RetryEnv) (k : Nat) : Bool :=
  match env.fileLen k, env.headLen k with
  | some m, some t => m == t
  | _, _ => false

/-- The retry loop body of Downloader::download_file, recursing over the
    remaining attempt indices of the Rust loop for attempt in 0..retries:
    when attempt > 0 first sleep 2 to the power attempt seconds, then run
    the engine, returning on success; on failure record the error and, only
    when attempt == 0 and the output path exists, probe the sizes (metadata
    plus HEAD) and return success when they match.  When the index list is
    exhausted the last recorded error is returned (fallback code 0 models
    the unreachable unwrap of an empty run). -/
def retryLoop (env : RetryEnv) : List Nat → Option Nat → List REvent × Except Nat Unit
  | [], lastErr => ([], Except.error (lastErr.getD 0))
  | k :: rest, _lastErr =>
    let pre : List REvent := if 0 < k then [REvent.sleep (2 ^ k)] else []
    match env.attemptResult k with
    | Except.ok _ => (pre ++ [REvent.attempt k], Except.ok ())
    | Except.error e =>
      if k = 0 ∧ env.outputExists 0 then
        if shortCircuitEqual env 0 then
          (pre ++ [REvent.attempt k, REvent.probe k], Except.ok ())
        else
          let r := retryLoop env rest (some e)
          (pre ++ [REvent.attempt k, REvent.probe k] ++ r.1, r.2)
      else
        let r := retryLoop env rest (some e)
        (pre ++ [REvent.attempt k] ++ r.1, r.2)

/-- Whole retry controller: attempts 0 through retries - 1, no recorded
    error at entry. -/
def retryController (env : RetryEnv) (retries : Nat) : List REvent × Except Nat Unit :=
  retryLoop env (List.range retries) none

/-- The backoff sleeps of an event trace, in order. -/
def sleepsOf (trace : List REvent) : List Nat :=
  trace.filterMap (fun e => match e with
    | REvent.sleep n => some n
    | _ => none)

/-- The engine attempts of an event trace, in order. -/
def attemptsOf (trace : List REvent) : List Nat :=
  trace.filterMap (fun e => match e with
    | REvent.attempt k => some k
    | _ => none)

/-- The short-circuit probes of an event trace, in order. -/
def probesOf (trace : List REvent) : List Nat :=
  trace.filterMap (fun e => match e with
    | REvent.probe k => some k
    | _ => none)

/-- An environment in which every engine attempt fails with code 7 and the
    output path never exists. -/
def envAllFail : RetryEnv :=
  ⟨fun _ => Except.error 7, fun _ => false, fun _ => none, fun _ => none⟩

/-- Counterexample to C5 as stated: with retries = 3 and every attempt
    failing, the controller sleeps 2 then 4 seconds, not the 1, 2, 4 the
    claim predicts; the backoff before the attempt after failed attempt k is
    2 to the power k + 1 seconds, not 2 to the power k. -/
theorem backoff_counterexample :
    sleepsOf (retryController envAllFail 3).1 = [2, 4] ∧
    sleepsOf (retryController envAllFail 3).1 ≠ [1, 2, 4] ∧
    (retryController envAllFail 3).2 = Except.error 7 :=
  ⟨rfl, by decide, rfl⟩

theorem sleepsOf_append (a b : List REvent) :
    sleepsOf (a ++ b) = sleepsOf a ++ sleepsOf b :=
  List.filterMap_append a b _

theorem attemptsOf_append (a b : List REvent) :
    attemptsOf (a ++ b) = attemptsOf a ++ attemptsOf b :=
  List.filterMap_append a b _

theorem probesOf_append (a b : List REvent) :
    probesOf (a ++ b) = probesOf a ++ probesOf b :=
  List.filterMap_append a b _

/-- The full-failure trace of the tail of the loop: every remaining
    attempt k is preceded by a sleep of 2 to the power k seconds, and the
    final error is the last attempt's error. -/
theorem retryLoop_all_fail (env : RetryEnv) (msg : Nat → Nat)
    (hfail : ∀ k, env.attemptResult k = Except.error (msg k)) :
    ∀ m k e, 0 < k →
      retryLoop env (List.range' k m) (some e) =
        ((List.range' k m).flatMap (fun j => [REvent.sleep (2 ^ j), REvent.attempt j]),
         Except.error (if m = 0 then e else msg (k + m - 1))) := by
  intro m
  induction m with
  | zero =>
    intro k e _
    rw [List.range'_zero]
    rfl
  | succ m ih =>
    intro k e hk
    rw [List.range'_succ, List.flatMap_cons]
    show retryLoop env (k :: List.range' (k + 1) m) (some e) = _
    have hcond : ¬ (k = 0 ∧ env.outputExists 0 = true) := by
      intro hc
      omega
    simp only [retryLoop, hfail]
    rw [if_neg hcond, if_pos hk]
    rw [ih (k + 1) (msg k) (by omega)]
    have herr : (if m = 0 then msg k else msg (k + 1 + m - 1)) = msg (k + m + 1 - 1) := by
      by_cases hm : m = 0
      · rw [if_pos hm]
        congr 1
        omega
      · rw [if_neg hm]
        congr 1
        omega
    rw [herr]
    have hone : ¬ (m + 1 = 0) := by omega
    rw [if_neg hone]
    simp [List.append_assoc]

theorem sleeps_flatMap :
    ∀ (m s : Nat), sleepsOf ((List.range' s m).flatMap
        (fun j => [REvent.sleep (2 ^ j), REvent.attempt j])) =
      (List.range' s m).map (fun j => 2 ^ j) := by
  intro m
  induction m with
  | zero => intro s; rw [List.range'_zero]; rfl
  | succ m ih =>
    intro s
    rw [List.range'_succ, List.flatMap_cons, sleepsOf_append, ih (s + 1), List.map_cons]
    rfl

theorem attempts_flatMap :
    ∀ (m s : Nat), attemptsOf ((List.range' s m).flatMap
        (fun j => [REvent.sleep (2 ^ j), REvent.attempt j])) =
      List.range' s m := by
  intro m
  induction m with
  | zero => intro s; rw [List.range'_zero]; rfl
  | succ m ih =>
    intro s
    rw [List.range'_succ, List.flatMap_cons, attemptsOf_append, ih (s + 1)]
    rfl

/-- C5 amended: when every attempt fails and the attempt-0 short circuit is
    unavailable, the backoff slept before the attempt following failed
    attempt k is 2 to the power k + 1 seconds (so with retries = 3 the three
    attempts are separated by 2s and 4s), every attempt 0..retries - 1 runs,
    and the run exhausts with the last attempt's error. -/
theorem backoff_exponential (env : RetryEnv) (msg : Nat → Nat) (retries : Nat)
    (hr : 0 < retries)
    (hfail : ∀ k, env.attemptResult k = Except.error (msg k))
    (hnoex : env.outputExists 0 = false) :
    sleepsOf (retryController env retries).1 =
      (List.range (retries - 1)).map (fun k => 2 ^ (k + 1)) ∧
    attemptsOf (retryController env retries).1 = List.range retries ∧
    (retryController env retries).2 = Except.error (msg (retries - 1)) := by
  unfold retryController
  have hsplit : List.range retries = 0 :: List.range' 1 (retries - 1) := by
    cases retries with
    | zero => exact absurd hr (Nat.lt_irrefl 0)
    | succ r =>
      rw [List.range_eq_range', List.range'_succ]
      simp
  rw [hsplit]
  simp only [retryLoop, hfail]
  have hcond : ¬ (True ∧ env.outputExists 0 = true) := by
    simp [hnoex]
  rw [if_neg hcond]
  rw [retryLoop_all_fail env msg hfail (retries - 1) 1 (msg 0) (by omega)]
  have herr : (if retries - 1 = 0 then msg 0 else msg (1 + (retries - 1) - 1)) =
      msg (retries - 1) := by
    by_cases h : retries - 1 = 0
    · rw [if_pos h, h]
    · rw [if_neg h]
      congr 1
      omega
  refine ⟨?_, ?_, ?_⟩
  · show sleepsOf ([] ++ [REvent.attempt 0] ++ _) = _
    rw [sleepsOf_append, sleepsOf_append]
    rw [sleeps_flatMap (retries - 1) 1]
    show (List.range' 1 (retries - 1)).map (fun j => 2 ^ j) = _
    rw [List.range'_eq_map_range, List.map_map]
    exact List.map_congr_left (fun a _ => by rw [Function.comp_apply, Nat.add_comm])
  · show attemptsOf ([] ++ [REvent.attempt 0] ++ _) = _
    rw [attemptsOf_append, attemptsOf_append]
    rw [attempts_flatMap (retries - 1) 1]
    rfl
  · show Except.error _ = _
    rw [herr]

/-- Witness for the amended C5 at retries = 3 with all attempts failing. -/
theorem backoff_exponential_witness :
    (0 < 3 ∧ (∀ k, envAllFail.attemptResult k = Except.error 7) ∧
      envAllFail.outputExists 0 = false) ∧
    (sleepsOf (retryController envAllFail 3).1 =
      (List.range (3 - 1)).map (fun k => 2 ^ (k + 1)) ∧
    attemptsOf (retryController envAllFail 3).1 = List.range 3 ∧
    (retryController envAllFail 3).2 = Except.error 7) :=
  ⟨⟨by omega, fun _ => rfl, rfl⟩,
    backoff_exponential envAllFail (fun _ => 7) 3 (by omega) (fun _ => rfl) rfl⟩

theorem range_cons_split (n : Nat) (hn : 0 < n) :
    List.range n = 0 :: List.range' 1 (n - 1) := by
  cases n with
  | zero => exact absurd hn (Nat.lt_irrefl 0)
  | succ r =>
    rw [List.range_eq_range', List.range'_succ]
    simp

theorem probesOf_pre (k : Nat) :
    probesOf (if 0 < k then [REvent.sleep (2 ^ k)] else []) = [] := by
  by_cases h : 0 < k
  · rw [if_pos h]
    rfl
  · rw [if_neg h]
    rfl

/-- In every run of the retry loop, every probe event carries attempt
    index 0: the already-complete check is wired to attempt == 0 only. -/
theorem probes_only_zero (env : RetryEnv) :
    ∀ (ks : List Nat) (le : Option Nat) (j : Nat),
      j ∈ probesOf (retryLoop env ks le).1 → j = 0 := by
  intro ks
  induction ks with
  | nil =>
    intro le j hj
    simp [retryLoop, probesOf] at hj
  | cons k rest ih =>
    intro le j hj
    cases hres : env.attemptResult k with
    | ok u =>
      simp only [retryLoop, hres] at hj
      rw [probesOf_append, probesOf_pre] at hj
      simp [probesOf] at hj
    | error e =>
      simp only [retryLoop, hres] at hj
      by_cases hc : k = 0 ∧ env.outputExists 0 = true
      · rw [if_pos hc] at hj
        obtain ⟨hk0, -⟩ := hc
        subst hk0
        by_cases hs : shortCircuitEqual env 0 = true
        · rw [if_pos hs] at hj
          rw [probesOf_append, probesOf_pre] at hj
          simp [probesOf] at hj
          exact hj
        · rw [if_neg hs] at hj
          rw [probesOf_append, probesOf_append, probesOf_pre] at hj
          simp only [List.nil_append, List.mem_append] at hj
          rcases hj with hj1 | hj2
          · simp [probesOf] at hj1
            exact hj1
          · exact ih (some e) j hj2
      · rw [if_neg hc] at hj
        rw [probesOf_append, probesOf_append, probesOf_pre] at hj
        simp only [List.nil_append, List.mem_append] at hj
        rcases hj with hj1 | hj2
        · simp [probesOf] at hj1
        · exact ih (some e) j hj2

/-- Environment for the C6 counterexample: every attempt fails with code 9,
    the output file exists throughout, its length is 3 when attempt 0 fails
    (not yet equal to the remote size 5) and 5 from attempt 1 on (equal). -/
def envC6 : RetryEnv :=
  ⟨fun _ => Except.error 9, fun _ => true,
   fun k => if k = 0 then some 3 else some 5, fun _ => some 5⟩

/-- Counterexample to C6 as stated: at the failure of attempt 1 the probed
    size equals the file length, yet the run still exhausts with the error,
    because the code re-probes only when attempt == 0 (the single probe in
    the trace is at attempt 0). -/
theorem short_circuit_not_rechecked_counterexample :
    shortCircuitEqual envC6 1 = true ∧
    (retryController envC6 3).2 = Except.error 9 ∧
    probesOf (retryController envC6 3).1 = [0] :=
  ⟨rfl, rfl, rfl⟩

/-- C6 amended: the cheap already-complete short circuit runs only after the
    first failed attempt (k = 0) and only when the output path exists; when
    the metadata read and the re-probe HEAD then report equal sizes, the
    controller reports success immediately, with no backoff sleep and no
    further engine attempt.  After any later failed attempt no re-probe
    happens at all: every probe event in any run carries attempt index 0. -/
theorem short_circuit_only_first (env : RetryEnv) (retries e : Nat)
    (hr : 0 < retries)
    (hfail0 : env.attemptResult 0 = Except.error e)
    (hex : env.outputExists 0 = true)
    (heq : shortCircuitEqual env 0 = true) :
    retryController env retries = ([REvent.attempt 0, REvent.probe 0], Except.ok ()) ∧
    (∀ (env2 : RetryEnv) (ks : List Nat) (le : Option Nat) (j : Nat),
      j ∈ probesOf (retryLoop env2 ks le).1 → j = 0) := by
  constructor
  · unfold retryController
    rw [range_cons_split retries hr]
    simp only [retryLoop, hfail0]
    have hcond : (True ∧ env.outputExists 0 = true) := ⟨trivial, hex⟩
    rw [if_pos hcond, if_pos heq]
    rfl
  · exact fun env2 ks le j hj => probes_only_zero env2 ks le j hj

/-- Environment for the C6 witness: attempt 0 fails with code 4, the output
    exists and both size reads agree on 11. -/
def envC6w : RetryEnv :=
  ⟨fun _ => Except.error 4, fun _ => true, fun _ => some 11, fun _ => some 11⟩

/-- Witness for the amended C6 at retries = 3. -/
theorem short_circuit_only_first_witness :
    (0 < 3 ∧ envC6w.attemptResult 0 = Except.error 4 ∧
      envC6w.outputExists 0 = true ∧ shortCircuitEqual envC6w 0 = true) ∧
    (retryController envC6w 3 = ([REvent.attempt 0, REvent.probe 0], Except.ok ()) ∧
    (∀ (env2 : RetryEnv) (ks : List Nat) (le : Option Nat) (j : Nat),
      j ∈ probesOf (retryLoop env2 ks le).1 → j = 0)) :=
  ⟨⟨by omega, rfl, rfl, rfl⟩,
    short_circuit_only_first envC6w 3 4 (by omega) rfl rfl rfl⟩

/-- The auto-computed file-level concurrency bound of download_multiple:
    min(8, max(1, 16 / max(1, workers))). -/
def autoMaxConcurrent (workers : Nat) : Nat :=
  min 8 (max 1 (16 / max 1 workers))

/-- max_concurrent = config.max_concurrent_files.unwrap_or_else(auto). -/
def maxConcurrentFiles (configMax : Option Nat) (workers : Nat) : Nat :=
  configMax.getD (autoMaxConcurrent workers)

/-- The engine invocations download_multiple makes: one call of the module
    function download::download_file per submitted pair, in submission
    order.  Downloads are (url, output_path) pairs with both components
    modelled as opaque Nat ids; engineResult is the outcome oracle of that
    single engine call. -/
def downloadMultipleOutcomes (downloads : List (Nat × Nat))
    (engineResult : Nat × Nat → Except Nat Unit) : List (Except Nat Unit) :=
  downloads.map engineResult

/-- The error list download_multiple aggregates over its channel.  The code
    collects completions in a nondeterministic order; only the collected
    set matters for the batch verdict, so the model lists them in
    submission order. -/
def downloadMultipleErrors (downloads : List (Nat × Nat))
    (engineResult : Nat × Nat → Except Nat Unit) : List Nat :=
  downloads.filterMap (fun d => match engineResult d with
    | Except.ok _ => none
    | Except.error e => some e)

/-- Downloader::download_multiple in src/lib.rs: an empty list returns
    success immediately; otherwise every pair is processed by exactly one
    engine call (the spawned task invokes download::download_file directly,
    not the retrying Downloader::download_file), and the batch returns
    success iff no file failed, otherwise the aggregated error list. -/
def download_multiple (downloads : List (Nat × Nat))
    (engineResult : Nat × Nat → Except Nat Unit) : Except (List Nat) Unit :=
  if downloads.isEmpty then Except.ok ()
  else if (downloadMultipleErrors downloads engineResult).isEmpty then Except.ok ()
  else Except.error (downloadMultipleErrors downloads engineResult)

/-- Scheduling state of the batch: pairs still waiting for a permit, pairs
    currently holding a permit, finished pairs. -/
structure BatchState where
  waiting : List (Nat × Nat)
  running : List (Nat × Nat)
  finished : List (Nat × Nat)
deriving DecidableEq, Repr

/-- Small-step semantics of the tokio counting semaphore in
    download_multiple: a waiting task may start only when fewer than maxC
    permits are held (sem.acquire), and a running task may finish, releasing
    its permit when the task is dropped. -/
inductive BatchStep (maxC : Nat) : BatchState → BatchState → Prop
  | acquire (d : Nat × Nat) (s : BatchState) :
      d ∈ s.waiting → s.running.length < maxC →
      BatchStep maxC s ⟨s.waiting.erase d, d :: s.running, s.finished⟩
  | finish (d : Nat × Nat) (s : BatchState) :
      d ∈ s.running →
      BatchStep maxC s ⟨s.waiting, s.running.erase d, d :: s.finished⟩

/-- States reachable from the initial batch state, in which every submitted
    pair waits and no permit is held. -/
inductive BatchReachable (maxC : Nat) (downloads : List (Nat × Nat)) : BatchState → Prop
  | init : BatchReachable maxC downloads ⟨downloads, [], []⟩
  | step (s t : BatchState) : BatchReachable maxC downloads s → BatchStep maxC s t →
      BatchReachable maxC downloads t

/-- Environment for the C1 counterexample: the engine call fails with code 5
    the first time and would succeed on any retry; the output never exists. -/
def envC1 : RetryEnv :=
  ⟨fun k => if k = 0 then Except.error 5 else Except.ok (),
   fun _ => false, fun _ => none, fun _ => none⟩

/-- Counterexample to C1 as stated: a batch of one file whose single engine
    call fails is reported failed, although the Retry Controller on the very
    same environment (retries = 3) would succeed at attempt 1 after backoff;
    download_multiple does not run the files through the Retry Controller. -/
theorem batch_no_retry_counterexample :
    download_multiple [(1, 1)] (fun _ => envC1.attemptResult 0) = Except.error [5] ∧
    (retryController envC1 3).2 = Except.ok () :=
  ⟨rfl, rfl⟩

/-- C1 amended: the batch admits at most max_concurrent_files files
    simultaneously via the counting permit (every reachable scheduler state
    holds at most maxC permits), the auto-computed bound agrees with
    min(8, max(1, 16 / workers)) for positive workers, and each file is
    downloaded by a SINGLE engine attempt with no retry: the batch succeeds
    iff every file's one engine call succeeded, failed files being reported
    in the batch error. -/
theorem batch_bounded_single_attempt (maxC : Nat) (downloads : List (Nat × Nat))
    (engineResult : Nat × Nat → Except Nat Unit) :
    (∀ s, BatchReachable maxC downloads s → s.running.length ≤ maxC) ∧
    (∀ w, 0 < w → autoMaxConcurrent w = min 8 (max 1 (16 / w))) ∧
    (download_multiple downloads engineResult = Except.ok () ↔
      ∀ d ∈ downloads, engineResult d = Except.ok ()) := by
  refine ⟨?_, ?_, ?_⟩
  · intro s hs
    induction hs with
    | init => exact Nat.zero_le _
    | step s t _hreach hstep ih =>
      cases hstep with
      | acquire d s hmem hlt => simpa using hlt
      | finish d s hmem =>
        have := List.length_erase_of_mem hmem
        simp only
        omega
  · intro w hw
    unfold autoMaxConcurrent
    rw [Nat.max_eq_right (by omega : 1 ≤ w)]
  · by_cases hemp : downloads.isEmpty
    · have hnil : downloads = [] := List.isEmpty_iff.mp hemp
      subst hnil
      simp [download_multiple]
    · have hiff : downloadMultipleErrors downloads engineResult = [] ↔
          ∀ d ∈ downloads, engineResult d = Except.ok () := by
        unfold downloadMultipleErrors
        rw [List.filterMap_eq_nil_iff]
        constructor
        · intro h d hd
          have hnone := h d hd
          cases hres : engineResult d with
          | ok u => rfl
          | error e => rw [hres] at hnone; simp at hnone
        · intro h d hd
          rw [h d hd]
      unfold download_multiple
      rw [if_neg hemp]
      by_cases herrs : downloadMultipleErrors downloads engineResult = []
      · rw [herrs]
        simp only [List.isEmpty_nil, if_true]
        constructor
        · intro _
          exact hiff.mp herrs
        · intro _
          trivial
      · have hne : (downloadMultipleErrors downloads engineResult).isEmpty = false := by
          rcases h : downloadMultipleErrors downloads engineResult with _ | ⟨x, xs⟩
          · exact absurd h herrs
          · rfl
        rw [hne]
        simp only [Bool.false_eq_true, if_false]
        constructor
        · intro h
          exact absurd h (by simp)
        · intro hall
          exact absurd (hiff.mpr hall) herrs

/-- Witness for the amended C1: two files with maxC = 1, the second file
    failing with code 3. -/
theorem batch_bounded_single_attempt_witness :
    ((∀ s, BatchReachable 1 [(1, 1), (2, 2)] s → s.running.length ≤ 1) ∧
    (∀ w, 0 < w → autoMaxConcurrent w = min 8 (max 1 (16 / w))) ∧
    (download_multiple [(1, 1), (2, 2)]
        (fun d => if d.1 = 2 then Except.error 3 else Except.ok ()) = Except.ok () ↔
      ∀ d ∈ [(1, 1), (2, 2)],
        (fun d : Nat × Nat => if d.1 = 2 then Except.error 3 else Except.ok ()) d =
          Except.ok ())) ∧
    (0 : Nat) < 4 :=
  ⟨batch_bounded_single_attempt 1 [(1, 1), (2, 2)]
      (fun d => if d.1 = 2 then Except.error 3 else Except.ok ()),
    by omega⟩

/-- C10: an empty batch returns success immediately and performs no engine
    call at all (so no HTTP request is issued and no file is touched). -/
theorem empty_batch_ok (engineResult : Nat × Nat → Except Nat Unit) :
    download_multiple [] engineResult = Except.ok () ∧
    downloadMultipleOutcomes [] engineResult = [] :=
  ⟨rfl, rfl⟩

/-- A network request the engine issues: the capability HEAD, a sequential
    GET (with the optional open-ended Range start of download_optimized), or
    a chunk GET with a closed byte range. -/
inductive NetReq where
  | head
  | get (rangeFrom : Option Nat)
  | getRange (first last : Nat)
deriving DecidableEq, Repr

/-- Environment of one engine run of download::download_file: the bytes the
    unchanged remote serves, the parsed HEAD headers, the configuration, and
    the on-disk state (output file and per-chunk temp files).  tmpMeta none
    models an unreadable temp metadata; outputMeta none an unreadable output
    metadata. -/
structure EngineEnv where
  remote : List Nat
  contentLength : Option Nat
  acceptRangesBytes : Bool
  resume : Bool
  workers : Nat
  minParallelSize : Nat
  outputExists : Bool
  outputMeta : Option Nat
  outputContent : List Nat
  tmpExists : Nat → Bool
  tmpMeta : Nat → Option Nat
  tmpContent : Nat → List Nat

/-- Observable outcome of an engine run on the success path: requests issued
    in order, whether fs::remove_file ran on the output, the resulting
    output file, and success.  Transport failures are handled one level up
    by the Retry Controller model and are not needed by these claims. -/
structure SeqOutcome where
  reqs : List NetReq
  removed : Bool
  file : Option (List Nat)
  ok : Bool
deriving DecidableEq, Repr

/-- The GET tail of download_optimized: a Range header bytes=N- only when
    start_byte > 0, the body streamed from the remote at that offset, the
    file opened in append mode only when resuming past byte 0. -/
def seqFetch (env : EngineEnv) (startByte : Nat) (removed : Bool) : SeqOutcome :=
  ⟨[NetReq.get (if 0 < startByte then some startByte else none)],
   removed,
   some (if env.resume ∧ 0 < startByte then env.outputContent ++ env.remote.drop startByte
         else env.remote.drop startByte),
   true⟩

/-- download_optimized from src/download.rs: when resuming onto an existing
    output, a readable length below total resumes from that byte, a length
    equal to total returns already-complete with no request, and a larger
    length or unreadable metadata removes the file and refetches from 0. -/
def download_optimized (env : EngineEnv) (totalSize : Nat) : SeqOutcome :=
  if env.resume ∧ env.outputExists then
    match env.outputMeta with
    | some existing =>
      if existing < totalSize then seqFetch env existing false
      else if existing = totalSize then ⟨[], false, some env.outputContent, true⟩
      else seqFetch env 0 true
    | none => seqFetch env 0 true
  else seqFetch env 0 false

/-- One chunk task of download_parallel: the request it issues (none when
    the temp file already holds the chunk) and the temp file contents it
    ends with, reusing the download_chunk resume decision. -/
def chunkOutcome (env : EngineEnv) (c : Chunk) : Option NetReq × List Nat :=
  match download_chunk_plan c.start c.stop env.resume (env.tmpExists c.idx)
      (env.tmpMeta c.idx) with
  | ChunkAction.alreadyComplete => (none, env.tmpContent c.idx)
  | ChunkAction.fetch _ s e app =>
    let body := (env.remote.drop s).take (e - s + 1)
    (some (NetReq.getRange s e), if app then env.tmpContent c.idx ++ body else body)

/-- download_parallel on the success path: plan the chunks, run every chunk
    task, merge the temp files in index order into the output. -/
def download_parallel (env : EngineEnv) (totalSize : Nat) : SeqOutcome :=
  let plan := planChunks totalSize env.workers
  ⟨plan.filterMap (fun c => (chunkOutcome env c).1),
   false,
   some ((plan.map (fun c => (chunkOutcome env c).2)).flatten),
   true⟩

/-- download::download_file: HEAD first, then the parallel path exactly when
    the server advertises byte ranges, the size exceeds min_parallel_size
    and workers > 1, otherwise the sequential path. -/
def engine_download_file (env : EngineEnv) : SeqOutcome :=
  let totalSize := env.contentLength.getD 0
  let rest := if env.acceptRangesBytes ∧ env.minParallelSize < totalSize ∧ 1 < env.workers
    then download_parallel env totalSize else download_optimized env totalSize
  ⟨NetReq.head :: rest.reqs, rest.removed, rest.file, rest.ok⟩

/-- Environment for the C7 counterexample: a completed 3-byte download
    (output exists, byte-identical to the remote, length equals the probed
    size), but the configuration has resume off, as in the default
    DownloadConfig (continue_download = false). -/
def envC7 : EngineEnv :=
  { remote := [1, 2, 3], contentLength := some 3, acceptRangesBytes := true,
    resume := false, workers := 4, minParallelSize := 5,
    outputExists := true, outputMeta := some 3, outputContent := [1, 2, 3],
    tmpExists := fun _ => false, tmpMeta := fun _ => none,
    tmpContent := fun _ => [] }

/-- Counterexample to C7 as stated: re-running this completed download
    issues a full GET after the HEAD (the code short-circuits only when
    resume is on), so at most-one-HEAD-then-stop does not hold for every
    configuration under which the first run completed. -/
theorem rerun_reissues_get_counterexample :
    envC7.outputContent = envC7.remote ∧
    envC7.outputMeta = some (envC7.contentLength.getD 0) ∧
    (engine_download_file envC7).reqs = [NetReq.head, NetReq.get none] ∧
    NetReq.get none ∈ (engine_download_file envC7).reqs :=
  ⟨rfl, rfl, rfl, by decide⟩

/-- C7 amended: with resume enabled, on the sequential path, re-running a
    completed download (output exists, readable length equal to the probed
    total) performs exactly one HEAD and no GET, does not remove the file,
    and leaves the output bytes untouched. -/
theorem rerun_short_circuits_sequential (env : EngineEnv)
    (hres : env.resume = true)
    (hex : env.outputExists = true)
    (hmeta : env.outputMeta = some (env.contentLength.getD 0))
    (hseq : ¬ (env.acceptRangesBytes ∧
      env.minParallelSize < env.contentLength.getD 0 ∧ 1 < env.workers)) :
    engine_download_file env = ⟨[NetReq.head], false, some env.outputContent, true⟩ := by
  simp only [engine_download_file]
  rw [if_neg hseq]
  unfold download_optimized
  rw [hmeta]
  simp [hres, hex, Nat.lt_irrefl]

/-- Environment for the C7 witness: the same completed download with resume
    enabled. -/
def envC7w : EngineEnv := { envC7 with resume := true }

/-- Witness for the amended C7. -/
theorem rerun_short_circuits_sequential_witness :
    (envC7w.resume = true ∧ envC7w.outputExists = true ∧
      envC7w.outputMeta = some (envC7w.contentLength.getD 0) ∧
      ¬ (envC7w.acceptRangesBytes ∧
        envC7w.minParallelSize < envC7w.contentLength.getD 0 ∧ 1 < envC7w.workers)) ∧
    engine_download_file envC7w = ⟨[NetReq.head], false, some envC7w.outputContent, true⟩ :=
  ⟨⟨rfl, rfl, rfl, by decide⟩,
    rerun_short_circuits_sequential envC7w rfl rfl rfl (by decide)⟩

/-- C9: in the sequential path with resume on and an existing output whose
    metadata is unreadable or whose length exceeds the probed total, the
    file is removed and the download restarts from byte 0 with no Range
    header, succeeding with the freshly fetched bytes. -/
theorem stale_output_restarts (env : EngineEnv) (totalSize : Nat)
    (hres : env.resume = true) (hex : env.outputExists = true)
    (hbad : env.outputMeta = none ∨
      ∃ m, env.outputMeta = some m ∧ totalSize < m) :
    download_optimized env totalSize = ⟨[NetReq.get none], true, some env.remote, true⟩ := by
  unfold download_optimized
  rcases hbad with hnone | ⟨m, hm, hlt⟩
  · rw [hnone]
    simp [hres, hex, seqFetch]
  · rw [hm]
    have h1 : ¬ (m < totalSize) := by omega
    have h2 : ¬ (m = totalSize) := by omega
    simp [hres, hex, h1, h2, seqFetch]

/-- Environment for the C9 witness: resume on, output exists, unreadable
    output metadata, 2-byte remote. -/
def envC9w : EngineEnv :=
  { remote := [8, 9], contentLength := some 2, acceptRangesBytes := false,
    resume := true, workers := 1, minParallelSize := 5,
    outputExists := true, outputMeta := none, outputContent := [7],
    tmpExists := fun _ => false, tmpMeta := fun _ => none,
    tmpContent := fun _ => [] }

/-- Witness for C9 at an unreadable metadata on a 2-byte remote. -/
theorem stale_output_restarts_witness :
    (envC9w.resume = true ∧ envC9w.outputExists = true ∧
      (envC9w.outputMeta = none ∨ ∃ m, envC9w.outputMeta = some m ∧ 2 < m)) ∧
    download_optimized envC9w 2 = ⟨[NetReq.get none], true, some envC9w.remote, true⟩ :=
  ⟨⟨rfl, rfl, Or.inl rfl⟩,
    stale_output_restarts envC9w 2 rfl rfl (Or.inl rfl)⟩

/-- Position of the last dot of a file name: returns the parts before and
    after the last dot, or none when the name has no dot.  File names are
    modelled as character lists. -/
def splitAtLastDot : List Char → Option (List Char × List Char)
  | [] => none
  | c :: rest =>
    match splitAtLastDot rest with
    | some (b, a) => some (c :: b, a)
    | none => if c = '.' then some ([], rest) else none

/-- Rust Path::file_stem on a file name: the whole name when it has no dot
    or when it is a dotfile (leading dot, no other dot), otherwise the part
    before the last dot. -/
def rustFileStem (name : List Char) : List Char :=
  match name with
  | [] => []
  | c :: rest =>
    if c = '.' then
      match splitAtLastDot rest with
      | some (b, _) => c :: b
      | none => c :: rest
    else
      match splitAtLastDot (c :: rest) with
      | some (b, _) => b
      | none => c :: rest

/-- Rust Path::with_extension with a nonempty new extension: the file stem
    followed by a dot and the new extension (the old extension, when
    present, is REPLACED, not kept). -/
def rustWithExtension (name newExt : List Char) : List Char :=
  rustFileStem name ++ '.' :: newExt

/-- The characters of the partN extension used at the spawn site of
    download_parallel: format part{i}. -/
def partChars (i : Nat) : List Char :=
  'p' :: 'a' :: 'r' :: 't' :: Nat.toDigits 10 i

/-- The temp path of chunk i: output.with_extension(format part{i}) from
    src/download.rs line 221, at the file-name level. -/
def tmpPathName (outputName : List Char) (i : Nat) : List Char :=
  rustWithExtension outputName (partChars i)

/-- Counterexample to C8 as stated: with_extension REPLACES the final
    extension, so the temp path of a.zip chunk 0 is a.part0, not
    a.zip.part0, and the distinct output names a.zip and a.tar collide on
    the same temp path. -/
theorem tmp_path_counterexample :
    tmpPathName ['a', '.', 'z', 'i', 'p'] 0 = ['a', '.', 'p', 'a', 'r', 't', '0'] ∧
    tmpPathName ['a', '.', 't', 'a', 'r'] 0 = tmpPathName ['a', '.', 'z', 'i', 'p'] 0 ∧
    (['a', '.', 'z', 'i', 'p'] : List Char) ≠ ['a', '.', 't', 'a', 'r'] ∧
    tmpPathName ['a', '.', 'z', 'i', 'p'] 0 ≠
      ['a', '.', 'z', 'i', 'p'] ++ ['.', 'p', 'a', 'r', 't', '0'] := by
  refine ⟨?_, ?_, ?_, ?_⟩ <;> decide

theorem splitAtLastDot_none (l : List Char) (h : ∀ x ∈ l, ¬ x = '.') :
    splitAtLastDot l = none := by
  induction l with
  | nil => rfl
  | cons c rest ih =>
    have hc : ¬ c = '.' := h c (List.mem_cons_self c rest)
    have hrest := ih (fun x hx => h x (List.mem_cons_of_mem c hx))
    unfold splitAtLastDot
    rw [hrest]
    rw [if_neg hc]

theorem splitAtLastDot_append (xs ys : List Char) (h : ∀ x ∈ ys, ¬ x = '.') :
    splitAtLastDot (xs ++ '.' :: ys) = some (xs, ys) := by
  induction xs with
  | nil =>
    show splitAtLastDot ('.' :: ys) = some ([], ys)
    unfold splitAtLastDot
    rw [splitAtLastDot_none ys h]
    rw [if_pos rfl]
  | cons x xs ih =>
    show splitAtLastDot (x :: (xs ++ '.' :: ys)) = some (x :: xs, ys)
    unfold splitAtLastDot
    rw [ih]

/-- C8 amended: the temp path of chunk i is deterministic and equals the
    output name with its FINAL extension (the part after the last dot)
    replaced by partN; when the output name has no dot the suffix .partN is
    appended to the full name.  Consequently the temp path never depends on
    the replaced extension: any two output names with the same stem and
    different (dot-free) final extensions map to the same temp path, so
    distinct output paths do not always get distinct temp paths. -/
theorem tmp_path_replaces_final_extension (c : Char) (stem ext : List Char) (i : Nat)
    (hc : ¬ c = '.') (hext : ∀ x ∈ ext, ¬ x = '.') :
    tmpPathName (c :: (stem ++ '.' :: ext)) i = (c :: stem) ++ '.' :: partChars i ∧
    ((∀ x ∈ c :: stem, ¬ x = '.') →
      tmpPathName (c :: stem) i = (c :: stem) ++ '.' :: partChars i) := by
  constructor
  · simp only [tmpPathName, rustWithExtension, rustFileStem]
    rw [if_neg hc]
    have hsplit : splitAtLastDot (c :: (stem ++ '.' :: ext)) = some (c :: stem, ext) := by
      have := splitAtLastDot_append (c :: stem) ext hext
      rw [List.cons_append] at this
      exact this
    rw [hsplit]
  · intro hall
    simp only [tmpPathName, rustWithExtension, rustFileStem]
    rw [if_neg hc]
    rw [splitAtLastDot_none (c :: stem) hall]

/-- Witness for the amended C8 at output name a.zip (stem a, extension zip),
    chunk 0. -/
theorem tmp_path_replaces_final_extension_witness :
    ((¬ ('a' : Char) = '.') ∧ (∀ x ∈ (['z', 'i', 'p'] : List Char), ¬ x = '.')) ∧
    (tmpPathName ('a' :: ([] ++ '.' :: ['z', 'i', 'p'])) 0 =
      ('a' :: []) ++ '.' :: partChars 0 ∧
    ((∀ x ∈ ('a' :: ([] : List Char)), ¬ x = '.') →
      tmpPathName ('a' :: ([] : List Char)) 0 = ('a' :: []) ++ '.' :: partChars 0)) :=
  ⟨⟨by decide, by decide⟩,
    tmp_path_replaces_final_extension 'a' [] ['z', 'i', 'p'] 0 (by decide) (by decide)⟩

end Dwrs
